import Mathlib

/-!
# Verification of the Neocities incremental upload tool

A shallow embedding of `upload_neocities.py` and proofs about its core
components: the content hasher (`sha1_file`), the batcher (`chunked`),
the resilient invoker (`retry_on_rate_limit`), the remote index builder
and the diff engine (both inline in `main`).

Bytes are `Nat` below 256, machine words are `Nat` reduced `% 2 ^ 32`,
Python `int` is `Int`, a fallible computation returns `Option`/`Except`.
-/

/-! ## Python `range` and slices

`chunked` iterates `range(0, len(seq), n)` and takes slices `seq[i : i + n]`.
`range` raises `ValueError` when the step is `0` (modelled as `none`);
otherwise it produces `max(0, ceildiv(stop - start, step))` elements.
-/

/-- Model of Python `range(start, stop, step)` as the list it enumerates:
`none` models the `ValueError` raised on a zero step. -/
def pyRange (start stop step : Int) : Option (List Int) :=
  if step = 0 then none
  else
    let len : Int :=
      if 0 < step then (stop - start + step - 1) / step
      else (start - stop + (-step) - 1) / (-step)
    some ((List.range len.toNat).map (fun (k : Nat) => start + step * (k : Int)))

/-- Model of the Python slice `seq[i : j]` for non-negative bounds. -/
def pySlice (seq : List α) (i j : Int) : List α :=
  (seq.drop i.toNat).take (j.toNat - i.toNat)

/-- `chunked(seq, n)`: yields `seq[i : i + n]` for `i in range(0, len(seq), n)`.
The generator is modelled fully iterated; `none` models the `ValueError`
that `range` raises when `n = 0`. -/
def chunked (seq : List α) (n : Int) : Option (List (List α)) :=
  (pyRange 0 seq.length n).map (fun idxs => idxs.map (fun i => pySlice seq i (i + n)))

/-- Helper for reasoning about `chunked`: repeatedly take `buf` elements
until the read comes back empty, exactly the loop
`iter(lambda: fh.read(buf), b"")` in `sha1_file`. -/
def readChunks (buf : Nat) (xs : List α) : List (List α) :=
  match h : xs.take buf with
  | [] => []
  | c :: cs => (c :: cs) :: readChunks buf (xs.drop buf)
termination_by xs.length
decreasing_by
  have hne : xs.take buf ≠ [] := by rw [h]; exact List.cons_ne_nil c cs
  rw [Ne, List.take_eq_nil_iff] at hne
  push_neg at hne
  have : 0 < xs.length := List.length_pos.mpr hne.2
  simp [List.length_drop]
  omega

/-! ## The resilient invoker `retry_on_rate_limit`

The wrapped callable is modelled by the trace of outcomes of its successive
invocations.  The invoker loops: on success it returns the value; on a
`requests.HTTPError` with a transient status it sleeps `delay` seconds and
doubles `delay` (capped at 600); on any other `HTTPError` status it
re-raises; an exception of any other type is not caught at all.  We record
the list of sleep durations alongside the final result.
-/

/-- One invocation's outcome: normal return, `requests.HTTPError` with a
status code, or an exception of any other type. -/
inductive Outcome where
  | ok (v : Nat)
  | http (status : Nat)
  | exc (tag : String)
deriving DecidableEq, Repr

/-- How a `retry_on_rate_limit` call ends: return, re-raised `HTTPError`,
an uncaught non-HTTP exception, or still looping when the trace ran out. -/
inductive RunResult where
  | success (v : Nat)
  | raisedHttp (status : Nat)
  | raisedExc (tag : String)
  | looping
deriving DecidableEq, Repr

/-- The statuses treated as transient: `(429, 500, 502, 503, 504)`. -/
def transientCodes : List Nat := [429, 500, 502, 503, 504]

/-- The retry loop body of `retry_on_rate_limit`, with the current `delay`
made explicit.  Returns the sleeps performed and the final result. -/
def retryAux (delay : Nat) (trace : List Outcome) : List Nat × RunResult :=
  match trace with
  | [] => ([], .looping)
  | .ok v :: _ => ([], .success v)
  | .http s :: rest =>
      if s ∈ transientCodes then
        let r := retryAux (min (delay * 2) 600) rest
        (delay :: r.1, r.2)
      else ([], .raisedHttp s)
  | .exc t :: _ => ([], .raisedExc t)

/-- `retry_on_rate_limit(fn)`: each call initialises `delay = 60` locally. -/
def retry_on_rate_limit (trace : List Outcome) : List Nat × RunResult :=
  retryAux 60 trace

/-! ## The diff engine

For each local file `main` evaluates
`size != r_size or sha1_file(p) != r_sha` where
`(r_size, r_sha) = remote_index.get(rel, (None, None))`.
Python `or` short-circuits, so `sha1_file` runs only when the first
comparison is `False`.  `diffStep` returns the decision together with
whether the hasher was invoked.
-/

/-- A local file as the diff engine consumes it: its relative and absolute
paths, its `stat` size, and the SHA-1 `sha1_file` would report. -/
structure LocalFile where
  rel : String
  abs : String
  size : Nat
  hash : String
deriving DecidableEq, Repr

/-- The test `size != r_size or sha1_file(p) != r_sha` with the lookup
result as an `Option` (`none` is the `(None, None)` default).  Returns
`(include, hashComputed)`; the second component records whether the
short-circuiting `or` reached the `sha1_file` call. -/
def diffStep (size : Nat) (hash : String) (r : Option (Nat × String)) : Bool × Bool :=
  match r with
  | none => (true, false)
  | some (rsz, rsha) => if size ≠ rsz then (true, false) else (hash ≠ rsha, true)

/-- Python `dict` lookup `m.get(k)` on an association list with unique keys. -/
def dictGet (m : List (String × β)) (k : String) : Option β :=
  (m.find? (fun kv => kv.1 = k)).map (fun kv => kv.2)

/-- Python `dict` assignment `m[k] = v`: overwrite in place when the key
exists, append otherwise. -/
def dictInsert : List (String × β) → String → β → List (String × β)
  | [], k, v => [(k, v)]
  | kv :: m, k, v => if kv.1 = k then (k, v) :: m else kv :: dictInsert m k v

/-- The `to_send` loop of `main`: append `(abs, rel)` for every local file
whose diff test fires. -/
def syncPlan (locFiles : List LocalFile) (idx : List (String × (Nat × String))) :
    List (String × String) :=
  locFiles.foldl
    (fun acc p =>
      if (diffStep p.size p.hash (dictGet idx p.rel)).1 then acc ++ [(p.abs, p.rel)] else acc)
    []

/-- Spec-side inclusion condition, written from the invariant's words: no
remote entry under the relative path, or the sizes differ, or the hashes
differ. -/
def specIncluded (p : LocalFile) (idx : List (String × (Nat × String))) : Bool :=
  match dictGet idx p.rel with
  | none => true
  | some (rsz, rsha) => decide (p.size ≠ rsz) || decide (p.hash ≠ rsha)

/-! ## The remote index builder

`main` checks `raw.get("result") != "success" or "files" not in raw` and
exits with `raw.get('message', raw)`; otherwise it builds
`{f["path"]: (f["size"], f["sha1_hash"]) for f in raw["files"] if not f["is_directory"]}`.
-/

/-- One entry of the transport's `files` list. -/
structure RemoteFile where
  path : String
  size : Nat
  sha1_hash : String
  is_directory : Bool
deriving DecidableEq, Repr

/-- The raw listing dict: each field is `none` when the key is absent. -/
structure RawListing where
  result : Option String
  files : Option (List RemoteFile)
  message : Option String
deriving DecidableEq, Repr

/-- One step of the dict comprehension building `remote_index`: skip
directories, insert everything else keyed by `path`. -/
def remoteStep (m : List (String × (Nat × String))) (f : RemoteFile) :
    List (String × (Nat × String)) :=
  if f.is_directory then m else dictInsert m f.path (f.size, f.sha1_hash)

/-- The dict comprehension building `remote_index`. -/
def remoteIndexOf (fs : List RemoteFile) : List (String × (Nat × String)) :=
  fs.foldl remoteStep []

/-- The validation and construction of `remote_index` in `main`:
`.error` models `sys.exit(f"✖  API error: {raw.get('message', raw)}")`,
carrying the `message` field (`none` when the dict has no message and the
whole raw dict is interpolated instead). -/
def buildRemoteIndex (raw : RawListing) :
    Except (Option String) (List (String × (Nat × String))) :=
  if raw.result ≠ some "success" ∨ raw.files = none then .error raw.message
  else .ok (remoteIndexOf (raw.files.getD []))

/-! ## The content hasher `sha1_file`

SHA-1 itself lives in `hashlib`; we model it concretely (standard FIPS
180-1 over byte lists, words as `Nat % 2 ^ 32`) so that both code paths of
`sha1_file` — `hashlib.file_digest(fh, "sha1")` on Python ≥ 3.11 and the
manual `fh.read(buf)` loop otherwise — can be compared as functions of the
file's byte content.
-/

/-- 32-bit left rotation. -/
def rotl32 (n x : Nat) : Nat :=
  ((x <<< n) ||| (x >>> (32 - n))) % 2 ^ 32

/-- Lowercase hex digit for a nibble. -/
def hexDigit (n : Nat) : Char :=
  if n < 10 then Char.ofNat (48 + n) else Char.ofNat (87 + n)

/-- A 32-bit word as exactly eight lowercase hex characters. -/
def hex8 (w : Nat) : String :=
  String.mk ((List.range 8).map (fun i => hexDigit (w / 16 ^ (7 - i) % 16)))

/-- Big-endian 8-byte encoding of `n`. -/
def beBytes8 (n : Nat) : List Nat :=
  (List.range 8).map (fun i => n / 2 ^ (8 * (7 - i)) % 256)

/-- SHA-1 padding: `0x80`, zeros to 56 mod 64, then the bit length. -/
def padBytes (msg : List Nat) : List Nat :=
  msg ++ [0x80] ++ List.replicate ((120 - (msg.length + 1) % 64) % 64) 0
      ++ beBytes8 (8 * msg.length)

/-- The sixteen big-endian 32-bit words of a 64-byte block. -/
def wordsOfBlock (block : List Nat) : List Nat :=
  (List.range 16).map (fun i =>
    (block.getD (4 * i) 0) <<< 24 + (block.getD (4 * i + 1) 0) <<< 16
      + (block.getD (4 * i + 2) 0) <<< 8 + block.getD (4 * i + 3) 0)

/-- Message-schedule expansion from 16 to 80 words. -/
def expandW (w : List Nat) : List Nat :=
  if h : 80 ≤ w.length then w
  else
    expandW (w ++ [rotl32 1 ((w.getD (w.length - 3) 0) ^^^ (w.getD (w.length - 8) 0)
      ^^^ (w.getD (w.length - 14) 0) ^^^ (w.getD (w.length - 16) 0))])
termination_by 80 - w.length
decreasing_by
  simp [List.length_append]
  omega

/-- Round function and constant for round `i`. -/
def fK (i b c d : Nat) : Nat × Nat :=
  if i < 20 then ((b &&& c) ||| ((b ^^^ 0xffffffff) &&& d), 0x5a827999)
  else if i < 40 then (b ^^^ c ^^^ d, 0x6ed9eba1)
  else if i < 60 then ((b &&& c) ||| (b &&& d) ||| (c &&& d), 0x8f1bbcdc)
  else (b ^^^ c ^^^ d, 0xca62c1d6)

/-- One SHA-1 block compression. -/
def compressBlock (st : Nat × Nat × Nat × Nat × Nat) (block : List Nat) :
    Nat × Nat × Nat × Nat × Nat :=
  let w := expandW (wordsOfBlock block)
  let r := (List.range 80).foldl
    (fun st2 i =>
      match st2 with
      | (a, b, c, d, e) =>
        let fk := fK i b c d
        let temp := (rotl32 5 a + fk.1 + e + fk.2 + w.getD i 0) % 2 ^ 32
        (temp, a, rotl32 30 b, c, d))
    st
  match st, r with
  | (h0, h1, h2, h3, h4), (a, b, c, d, e) =>
    ((h0 + a) % 2 ^ 32, (h1 + b) % 2 ^ 32, (h2 + c) % 2 ^ 32,
      (h3 + d) % 2 ^ 32, (h4 + e) % 2 ^ 32)

/-- SHA-1 state after absorbing `msg` (padded, in 64-byte blocks). -/
def sha1Words (msg : List Nat) : Nat × Nat × Nat × Nat × Nat :=
  (readChunks 64 (padBytes msg)).foldl compressBlock
    (0x67452301, 0xEFCDAB89, 0x98BADCFE, 0x10325476, 0xC3D2E1F0)

/-- `hashlib.sha1(msg).hexdigest()`: the 40-character lowercase hex digest. -/
def sha1Hex (msg : List Nat) : String :=
  match sha1Words msg with
  | (a, b, c, d, e) => hex8 a ++ hex8 b ++ hex8 c ++ hex8 d ++ hex8 e

/-- The Python ≥ 3.11 path of `sha1_file`: `hashlib.file_digest(fh, "sha1")`
digests the file's full byte content. -/
def sha1FileDigestPath (content : List Nat) : String :=
  sha1Hex content

/-- The fallback path of `sha1_file`: `h = hashlib.sha1()`, then
`h.update(chunk)` for each `chunk` of `iter(lambda: fh.read(buf), b"")`,
then `h.hexdigest()`.  A `hashlib` object digests the concatenation of
everything passed to `update`. -/
def sha1FileManualPath (content : List Nat) (buf : Nat) : String :=
  sha1Hex ((readChunks buf content).foldl (fun acc chunk => acc ++ chunk) [])

/-! ## Theorems: the resilient invoker (C2, C4, C6, C9) -/

theorem retryAux_transient (d s : Nat) (hs : s ∈ transientCodes) (rest : List Outcome) :
    retryAux d (.http s :: rest)
      = ((d :: (retryAux (min (d * 2) 600) rest).1, (retryAux (min (d * 2) 600) rest).2)) := by
  simp [retryAux, hs]

theorem min_double_cap (a : Nat) : min (min a 600 * 2) 600 = min (a * 2) 600 := by
  omega

theorem retryAux_replicate_ok (s v : Nat) (hs : s ∈ transientCodes) :
    ∀ (n j : Nat),
      retryAux (min (60 * 2 ^ j) 600) (List.replicate n (.http s) ++ [.ok v])
        = ((List.range n).map (fun k => min (60 * 2 ^ (j + k)) 600), .success v) := by
  intro n
  induction n with
  | zero => intro j; simp [retryAux]
  | succ n ih =>
      intro j
      have hpow : 60 * 2 ^ j * 2 = 60 * 2 ^ (j + 1) := by rw [pow_succ, mul_assoc]
      rw [List.replicate_succ, List.cons_append, retryAux_transient _ s hs, min_double_cap,
        hpow, ih (j + 1), List.range_succ_eq_map, List.map_cons, List.map_map]
      refine Prod.ext ?_ rfl
      have hfun : ((fun k => 60 * 2 ^ (j + k) ⊓ 600) ∘ Nat.succ)
          = (fun k => 60 * 2 ^ (j + 1 + k) ⊓ 600) := by
        funext k
        have he : j + Nat.succ k = j + 1 + k := by omega
        simp only [Function.comp_apply, he]
      rw [hfun]
      simp

theorem retryAux_replicate_loop (s : Nat) (hs : s ∈ transientCodes) :
    ∀ (n j : Nat),
      retryAux (min (60 * 2 ^ j) 600) (List.replicate n (.http s))
        = ((List.range n).map (fun k => min (60 * 2 ^ (j + k)) 600), .looping) := by
  intro n
  induction n with
  | zero => intro j; simp [retryAux]
  | succ n ih =>
      intro j
      have hpow : 60 * 2 ^ j * 2 = 60 * 2 ^ (j + 1) := by rw [pow_succ, mul_assoc]
      rw [List.replicate_succ, retryAux_transient _ s hs, min_double_cap,
        hpow, ih (j + 1), List.range_succ_eq_map, List.map_cons, List.map_map]
      refine Prod.ext ?_ rfl
      have hfun : ((fun k => 60 * 2 ^ (j + k) ⊓ 600) ∘ Nat.succ)
          = (fun k => 60 * 2 ^ (j + 1 + k) ⊓ 600) := by
        funext k
        have he : j + Nat.succ k = j + 1 + k := by omega
        simp only [Function.comp_apply, he]
      rw [hfun]
      simp

/-- C2: when the wrapped operation fails with a transient status `s` (one of
429, 500, 502, 503, 504) `n` times in a row, `retry_on_rate_limit` sleeps
`min (60 * 2 ^ k) 600` — that is 60, 120, 240, 480, 600, 600, … — before each
subsequent attempt; this holds for every `n` (no bound on the attempt count),
and nothing is raised: the run returns the success value when the operation
finally succeeds, and is still looping after any all-transient prefix. -/
theorem c2_transient_backoff (n s v : Nat) (hs : s ∈ transientCodes) :
    retry_on_rate_limit (List.replicate n (.http s) ++ [.ok v])
        = ((List.range n).map (fun k => min (60 * 2 ^ k) 600), .success v) ∧
      retry_on_rate_limit (List.replicate n (.http s))
        = ((List.range n).map (fun k => min (60 * 2 ^ k) 600), .looping) := by
  have h60 : (60 : Nat) = min (60 * 2 ^ 0) 600 := by norm_num
  constructor
  · rw [retry_on_rate_limit, h60, retryAux_replicate_ok s v hs n 0]
    simp
  · rw [retry_on_rate_limit, h60, retryAux_replicate_loop s hs n 0]
    simp

/-- Witness for C2: six consecutive 429s then success sleeps exactly
60, 120, 240, 480, 600, 600. -/
theorem c2_transient_backoff_witness :
    retry_on_rate_limit (List.replicate 6 (.http 429) ++ [.ok 7])
        = ([60, 120, 240, 480, 600, 600], .success 7) ∧
      retry_on_rate_limit (List.replicate 6 (.http 429))
        = ([60, 120, 240, 480, 600, 600], .looping) := by
  have h := c2_transient_backoff 6 429 7 (by decide)
  exact ⟨h.1.trans (by decide), h.2.trans (by decide)⟩

/-- C4: an `HTTPError` whose status is not in `{429, 500, 502, 503, 504}` is
re-raised on its first occurrence, with no sleep and no further attempt
(the rest of the trace is never consulted). -/
theorem c4_nontransient_raises (s : Nat) (hs : s ∉ transientCodes) (rest : List Outcome) :
    retry_on_rate_limit (.http s :: rest) = ([], .raisedHttp s) := by
  simp [retry_on_rate_limit, retryAux, hs]

/-- Witness for C4: a 404 on the first attempt is raised at once. -/
theorem c4_nontransient_raises_witness :
    retry_on_rate_limit [.http 404, .ok 5] = ([], .raisedHttp 404) :=
  c4_nontransient_raises 404 (by decide) [.ok 5]

/-- C6 counterexample: the claim says the backoff delay carries over between
distinct calls within a run.  It does not: `delay = 60` is local to each
call.  A first call whose transient failures drive the delay to 600 is
followed by a second call whose first transient failure still sleeps 60. -/
theorem c6_counterexample :
    retry_on_rate_limit [.http 429, .http 429, .http 429, .http 429, .ok 0]
        = ([60, 120, 240, 480], .success 0) ∧
      retry_on_rate_limit [.http 429, .ok 1] = ([60], .success 1) ∧
      (60 : Nat) ≠ 600 := by
  decide

/-- C6 amended: the backoff delay is reset to 60 at the start of every
`retry_on_rate_limit` call, so each call's first transient failure sleeps
60 time-units regardless of any earlier call's delay. -/
theorem c6_delay_reset (s : Nat) (hs : s ∈ transientCodes) (rest : List Outcome) :
    (retry_on_rate_limit (.http s :: rest)).1.head? = some 60 := by
  rw [retry_on_rate_limit, retryAux_transient 60 s hs rest]
  rfl

/-- Witness for the amended C6. -/
theorem c6_delay_reset_witness :
    (retry_on_rate_limit [.http 429, .ok 1]).1.head? = some 60 :=
  c6_delay_reset 429 (by decide) [.ok 1]

/-- C9: only `requests.HTTPError` is caught; an exception of any other type
(connection failure, timeout, …) propagates on its first occurrence, with no
sleep and no retry, whatever the rest of the trace holds. -/
theorem c9_non_http_uncaught (t : String) (rest : List Outcome) :
    retry_on_rate_limit (.exc t :: rest) = ([], .raisedExc t) :=
  rfl

/-! ## Theorems: the diff engine (C1, C5) -/

theorem diffStep_fst (size : Nat) (hash : String) (rsz : Nat) (rsha : String) :
    (diffStep size hash (some (rsz, rsha))).1
      = (decide (size ≠ rsz) || decide (hash ≠ rsha)) := by
  by_cases h : size = rsz <;> simp [diffStep, h]

theorem specIncluded_eq_diffStep (p : LocalFile) (idx : List (String × (Nat × String))) :
    specIncluded p idx = (diffStep p.size p.hash (dictGet idx p.rel)).1 := by
  rcases hr : dictGet idx p.rel with _ | ⟨rsz, rsha⟩
  · simp [specIncluded, diffStep, hr]
  · rw [specIncluded, hr, diffStep_fst]

theorem syncPlan_foldl_eq (idx : List (String × (Nat × String))) :
    ∀ (ls : List LocalFile) (acc : List (String × String)),
      ls.foldl
          (fun acc p =>
            if (diffStep p.size p.hash (dictGet idx p.rel)).1 then acc ++ [(p.abs, p.rel)]
            else acc)
          acc
        = acc ++ (ls.filter (fun p => specIncluded p idx)).map (fun p => (p.abs, p.rel)) := by
  intro ls
  induction ls with
  | nil => intro acc; simp
  | cons p ls ih =>
      intro acc
      rw [List.foldl_cons, List.filter_cons]
      by_cases h : (diffStep p.size p.hash (dictGet idx p.rel)).1 = true
      · rw [if_pos h, ih, specIncluded_eq_diffStep, h]
        simp
      · rw [if_neg h, ih, specIncluded_eq_diffStep, eq_false_of_ne_true h]
        simp

/-- C1: a local file contributes to `to_send` exactly when the remote index
has no entry under its relative path, or the remote size differs from the
local size, or the remote hash differs from the local hash: `syncPlan` is the
scan-ordered list of `(abs, rel)` pairs of exactly those files, and the
code's test agrees with the spec-side condition in both directions. -/
theorem c1_syncplan_iff (locFiles : List LocalFile) (idx : List (String × (Nat × String))) :
    syncPlan locFiles idx
        = (locFiles.filter (fun p => specIncluded p idx)).map (fun p => (p.abs, p.rel)) ∧
      ∀ p : LocalFile,
        specIncluded p idx = true ↔
          (dictGet idx p.rel = none ∨
            ∃ rsz rsha, dictGet idx p.rel = some (rsz, rsha) ∧ (p.size ≠ rsz ∨ p.hash ≠ rsha)) := by
  constructor
  · rw [syncPlan, syncPlan_foldl_eq idx locFiles []]
    simp
  · intro p
    rcases hr : dictGet idx p.rel with _ | ⟨rsz, rsha⟩
    · simp [specIncluded, hr]
    · rw [specIncluded, hr]
      simp only [hr, Option.some.injEq, reduceCtorEq, false_or]
      constructor
      · intro h
        rcases Bool.or_eq_true_iff.mp h with h1 | h1
        · exact ⟨rsz, rsha, rfl, Or.inl (of_decide_eq_true h1)⟩
        · exact ⟨rsz, rsha, rfl, Or.inr (of_decide_eq_true h1)⟩
      · rintro ⟨rsz2, rsha2, heq, hne⟩
        injection heq with h1 h2
        subst h1
        subst h2
        rcases hne with hne | hne
        · exact Bool.or_eq_true_iff.mpr (Or.inl (decide_eq_true hne))
        · exact Bool.or_eq_true_iff.mpr (Or.inr (decide_eq_true hne))

/-- C5 counterexample: the claim says the hasher runs for every candidate,
even when the sizes already differ.  It does not: the `or` short-circuits,
so a file whose local size 1 differs from the remote size 2 is included
without `sha1_file` ever being called — and a file with no remote entry
likewise skips the hash. -/
theorem c5_counterexample :
    (diffStep 1 "h" (some (2, "h"))).2 = false ∧
      ¬ ∀ (size : Nat) (hash : String) (r : Option (Nat × String)),
          (diffStep size hash r).2 = true := by
  refine ⟨rfl, fun hall => ?_⟩
  have := hall 1 "h" (some (2, "h"))
  simp [diffStep] at this

/-- C5 amended: the content hash is computed exactly when a remote entry
exists for the file's relative path and its size equals the local size; on a
missing entry or a size mismatch the short-circuiting `or` skips the
`sha1_file` call. -/
theorem c5_hash_short_circuit (size : Nat) (hash : String) (r : Option (Nat × String)) :
    (diffStep size hash r).2 = true ↔ ∃ rsha, r = some (size, rsha) := by
  rcases r with _ | ⟨rsz, rsha⟩
  · simp [diffStep]
  · by_cases h : size = rsz
    · subst h
      simp [diffStep]
    · simp [diffStep, h]
      intro heq
      exact absurd heq.symm h

/-! ## Theorems: the remote index builder (C8) -/

theorem dictGet_dictInsert (m : List (String × β)) (k : String) (v : β) (k2 : String) :
    dictGet (dictInsert m k v) k2 = if k = k2 then some v else dictGet m k2 := by
  induction m with
  | nil =>
      by_cases h2 : k = k2 <;> simp [dictInsert, dictGet, List.find?, h2]
  | cons kv0 m ih =>
      by_cases h0 : kv0.1 = k
      · by_cases h2 : k = k2 <;> simp [dictInsert, dictGet, List.find?, h0, h2]
      · rw [dictInsert, if_neg h0]
        by_cases h2 : kv0.1 = k2
        · have hk2 : ¬ k = k2 := fun he => h0 (h2.trans he.symm)
          simp [dictGet, List.find?, h2, hk2]
        · simp only [dictGet, List.find?] at ih ⊢
          simp only [h2, decide_eq_false h2]
          exact ih

theorem dictGet_dictInsert_self (m : List (String × β)) (k : String) (v : β) :
    dictGet (dictInsert m k v) k = some v := by
  rw [dictGet_dictInsert, if_pos rfl]

theorem mem_dictInsert {m : List (String × β)} {k : String} {v : β} {kv : String × β}
    (h : kv ∈ dictInsert m k v) : kv = (k, v) ∨ kv ∈ m := by
  induction m with
  | nil => simp [dictInsert] at h; simp [h]
  | cons kv0 m ih =>
      by_cases h0 : kv0.1 = k
      · simp only [dictInsert, h0, if_true, List.mem_cons] at h
        rcases h with h | h
        · exact Or.inl h
        · exact Or.inr (List.mem_cons_of_mem _ h)
      · simp only [dictInsert, h0, if_false, List.mem_cons] at h
        rcases h with h | h
        · refine Or.inr ?_
          rw [h]
          exact List.mem_cons_self kv0 m
        · rcases ih h with h1 | h1
          · exact Or.inl h1
          · exact Or.inr (List.mem_cons_of_mem _ h1)

theorem isSome_dictGet_dictInsert (m : List (String × β)) (k : String) (v : β) (k2 : String)
    (h : (dictGet m k2).isSome = true) : (dictGet (dictInsert m k v) k2).isSome = true := by
  rw [dictGet_dictInsert]
  by_cases h2 : k = k2
  · rw [if_pos h2]; rfl
  · rw [if_neg h2]; exact h

theorem remoteFold_mem :
    ∀ (fs : List RemoteFile) (acc : List (String × (Nat × String)))
      (kv : String × (Nat × String)), kv ∈ fs.foldl remoteStep acc →
      kv ∈ acc ∨ ∃ f, f ∈ fs ∧ f.is_directory = false
        ∧ kv = (f.path, (f.size, f.sha1_hash)) := by
  intro fs
  induction fs with
  | nil => intro acc kv h; exact Or.inl h
  | cons f fs ih =>
      intro acc kv h
      rw [List.foldl_cons] at h
      rcases ih (remoteStep acc f) kv h with h1 | h1
      · rw [remoteStep] at h1
        by_cases hd : f.is_directory
        · rw [if_pos hd] at h1
          exact Or.inl h1
        · rw [if_neg hd] at h1
          rcases mem_dictInsert h1 with h2 | h2
          · exact Or.inr ⟨f, List.mem_cons_self f fs, Bool.eq_false_iff.mpr hd, h2⟩
          · exact Or.inl h2
      · rcases h1 with ⟨f2, hmem, hdir, hkv⟩
        exact Or.inr ⟨f2, List.mem_cons_of_mem f hmem, hdir, hkv⟩

theorem remoteFold_key_mono :
    ∀ (fs : List RemoteFile) (acc : List (String × (Nat × String))) (k : String),
      (dictGet acc k).isSome = true → (dictGet (fs.foldl remoteStep acc) k).isSome = true := by
  intro fs
  induction fs with
  | nil => intro acc k h; exact h
  | cons f fs ih =>
      intro acc k h
      rw [List.foldl_cons]
      refine ih (remoteStep acc f) k ?_
      rw [remoteStep]
      by_cases hd : f.is_directory
      · rw [if_pos hd]; exact h
      · rw [if_neg hd]
        exact isSome_dictGet_dictInsert acc f.path _ k h

theorem remoteFold_key_mem :
    ∀ (fs : List RemoteFile) (acc : List (String × (Nat × String))) (f : RemoteFile),
      f ∈ fs → f.is_directory = false →
      (dictGet (fs.foldl remoteStep acc) f.path).isSome = true := by
  intro fs
  induction fs with
  | nil => intro acc f h; exact absurd h (List.not_mem_nil f)
  | cons f0 fs ih =>
      intro acc f hmem hdir
      rw [List.foldl_cons]
      rcases List.mem_cons.mp hmem with h | h
      · subst h
        refine remoteFold_key_mono fs (remoteStep acc f) f.path ?_
        rw [remoteStep, if_neg (by rw [hdir]; exact Bool.false_ne_true)]
        rw [dictGet_dictInsert_self]
        rfl
      · exact ih (remoteStep acc f0) f h hdir

/-- C8: `buildRemoteIndex` fails, carrying the transport's `message` field,
exactly when the listing's `result` is not `"success"` or the `files` key is
absent; otherwise it returns the index built from the `files` list, whose
entries are precisely the non-directory files keyed by their `path`
(every index entry comes from a non-directory file, and every non-directory
file's path is a key of the index). -/
theorem c8_remote_index (raw : RawListing) :
    ((raw.result ≠ some "success" ∨ raw.files = none) →
        buildRemoteIndex raw = .error raw.message) ∧
      (∀ fs, raw.result = some "success" → raw.files = some fs →
        buildRemoteIndex raw = .ok (remoteIndexOf fs) ∧
          (∀ kv, kv ∈ remoteIndexOf fs → ∃ f, f ∈ fs ∧ f.is_directory = false
            ∧ kv = (f.path, (f.size, f.sha1_hash))) ∧
          (∀ f, f ∈ fs → f.is_directory = false →
            (dictGet (remoteIndexOf fs) f.path).isSome = true)) := by
  constructor
  · intro h
    rw [buildRemoteIndex, if_pos h]
  · intro fs hres hfs
    refine ⟨?_, ?_, ?_⟩
    · rw [buildRemoteIndex, if_neg (by simp [hres, hfs]), hfs]
      rfl
    · intro kv hkv
      rcases remoteFold_mem fs [] kv hkv with h | h
      · exact absurd h (List.not_mem_nil kv)
      · exact h
    · intro f hmem hdir
      exact remoteFold_key_mem fs [] f hmem hdir

/-- Witness for C8: a failing listing (result `"borked"`) yields the API
error with its message; a successful listing with one file and one
directory yields the index of the file alone. -/
theorem c8_remote_index_witness :
    buildRemoteIndex ⟨some "borked", none, some "oops"⟩ = .error (some "oops") ∧
      buildRemoteIndex
          ⟨some "success",
            some [⟨"a.html", 3, "x1", false⟩, ⟨"sub", 0, "", true⟩], none⟩
        = .ok (remoteIndexOf [⟨"a.html", 3, "x1", false⟩, ⟨"sub", 0, "", true⟩]) := by
  constructor
  · exact (c8_remote_index ⟨some "borked", none, some "oops"⟩).1 (by simp)
  · exact ((c8_remote_index _).2
      [⟨"a.html", 3, "x1", false⟩, ⟨"sub", 0, "", true⟩] rfl rfl).1

/-! ## Theorems: the batcher (C3, C7) -/

theorem readChunks_nil_of_take (buf : Nat) (xs : List α) (h : xs.take buf = []) :
    readChunks buf xs = [] := by
  conv_lhs => rw [readChunks]
  split
  · rfl
  · rename_i c cs hm
    rw [h] at hm
    exact absurd hm (List.noConfusion)

theorem readChunks_cons_of_take (buf : Nat) (xs : List α) (h : xs.take buf ≠ []) :
    readChunks buf xs = xs.take buf :: readChunks buf (xs.drop buf) := by
  conv_lhs => rw [readChunks]
  split
  · rename_i hm
    exact absurd hm h
  · rename_i c cs hm
    rw [hm]

theorem readChunks_nil (buf : Nat) : readChunks buf ([] : List α) = [] :=
  readChunks_nil_of_take buf [] (List.take_nil)

theorem take_ne_nil_of_pos {b : Nat} {xs : List α} (hb : 0 < b) (hx : xs ≠ []) :
    xs.take b ≠ [] := by
  rw [Ne, List.take_eq_nil_iff]
  push_neg
  exact ⟨by omega, hx⟩

theorem flatten_readChunks {b : Nat} (hb : 0 < b) :
    ∀ (xs : List α), (readChunks b xs).flatten = xs := by
  intro xs
  induction xs using readChunks.induct b with
  | case1 xs h =>
      rw [readChunks_nil_of_take b xs h]
      rw [List.take_eq_nil_iff] at h
      rcases h with h | h
      · exact absurd h (by omega)
      · rw [h]; rfl
  | case2 xs c cs hm ih =>
      rw [readChunks_cons_of_take b xs (by rw [hm]; exact List.cons_ne_nil c cs)]
      rw [List.flatten_cons, ih, List.take_append_drop]

theorem length_readChunks {b : Nat} (hb : 0 < b) :
    ∀ (xs : List α), (readChunks b xs).length = (xs.length + b - 1) / b := by
  intro xs
  induction xs using readChunks.induct b with
  | case1 xs h =>
      rw [readChunks_nil_of_take b xs h]
      rw [List.take_eq_nil_iff] at h
      rcases h with h | h
      · omega
      · rw [h]
        simp [Nat.div_eq_of_lt (by omega : b - 1 < b)]
  | case2 xs c cs hm ih =>
      have hx : xs ≠ [] := by
        intro he
        rw [he] at hm
        exact absurd (List.take_nil ▸ hm) (List.noConfusion)
      have hL : 0 < xs.length := List.length_pos.mpr hx
      rw [readChunks_cons_of_take b xs (by rw [hm]; exact List.cons_ne_nil c cs)]
      rw [List.length_cons, ih, List.length_drop]
      rcases le_or_lt b xs.length with hle | hlt
      · have h1 : xs.length - b + b - 1 = xs.length - 1 := by omega
        have h2 : xs.length + b - 1 = (xs.length - 1) + b := by omega
        rw [h1, h2, Nat.add_div_right _ hb]
      · have h1 : xs.length - b = 0 := by omega
        rw [h1]
        have h2 : (0 + b - 1) / b = 0 := by
          apply Nat.div_eq_of_lt
          omega
        rw [h2]
        have h3 : (xs.length + b - 1) / b = 1 := by
          apply Nat.div_eq_of_lt_le <;> omega
        rw [h3]

theorem length_le_of_mem_readChunks {b : Nat} :
    ∀ (xs : List α), ∀ c ∈ readChunks b xs, c.length ≤ b := by
  intro xs
  induction xs using readChunks.induct b with
  | case1 xs h =>
      rw [readChunks_nil_of_take b xs h]
      intro c hc
      exact absurd hc (List.not_mem_nil c)
  | case2 xs c0 cs hm ih =>
      rw [readChunks_cons_of_take b xs (by rw [hm]; exact List.cons_ne_nil c0 cs)]
      intro c hc
      rcases List.mem_cons.mp hc with h | h
      · rw [h, List.length_take]
        omega
      · exact ih c h

theorem length_eq_of_mem_dropLast_readChunks {b : Nat} (hb : 0 < b) :
    ∀ (xs : List α), ∀ c ∈ (readChunks b xs).dropLast, c.length = b := by
  intro xs
  induction xs using readChunks.induct b with
  | case1 xs h =>
      rw [readChunks_nil_of_take b xs h]
      intro c hc
      exact absurd hc (List.not_mem_nil c)
  | case2 xs c0 cs hm ih =>
      rw [readChunks_cons_of_take b xs (by rw [hm]; exact List.cons_ne_nil c0 cs)]
      by_cases hrest : readChunks b (xs.drop b) = []
      · rw [hrest]
        intro c hc
        exact absurd hc (List.not_mem_nil c)
      · rw [List.dropLast_cons_of_ne_nil hrest]
        intro c hc
        rcases List.mem_cons.mp hc with h | h
        · have hdrop : xs.drop b ≠ [] := by
            intro he
            exact hrest (he ▸ readChunks_nil b)
          have hlen : b < xs.length := by
            have := List.length_pos.mpr hdrop
            rw [List.length_drop] at this
            omega
          rw [h, List.length_take]
          omega
        · exact ih c h

theorem chunked_pos_eq {b : Nat} (hb : 0 < b) (seq : List α) :
    chunked seq (b : Int) = some ((List.range ((seq.length + b - 1) / b)).map
      (fun k => (seq.drop (b * k)).take b)) := by
  have hb0 : ((b : Int)) ≠ 0 := by exact_mod_cast Nat.pos_iff_ne_zero.mp hb
  have hbp : (0 : Int) < (b : Int) := by exact_mod_cast hb
  have hlen : (((seq.length : Int) + b - 1) / b).toNat = (seq.length + b - 1) / b := by
    have h1 : ((seq.length : Int) + b - 1) = ((seq.length + b - 1 : Nat) : Int) := by
      push_cast
      omega
    rw [h1, ← Int.ofNat_ediv, Int.toNat_ofNat]
  simp only [chunked, pyRange, if_neg hb0, if_pos hbp, Int.sub_zero, Option.map_some',
    List.map_map]
  rw [hlen]
  refine congrArg some ?_
  have hfun : ((fun i => pySlice seq i (i + (b : Int))) ∘ fun (k : Nat) => 0 + (b : Int) * (k : Int))
      = (fun (k : Nat) => (seq.drop (b * k)).take b) := by
    funext k
    simp only [Function.comp_apply, pySlice]
    have h1 : ((0 : Int) + (b : Int) * (k : Int)) = ((b * k : Nat) : Int) := by push_cast; ring
    have h2 : ((0 : Int) + (b : Int) * (k : Int) + b) = ((b * k + b : Nat) : Int) := by
      push_cast; ring
    rw [h2, h1, Int.toNat_ofNat, Int.toNat_ofNat]
    congr 1
    omega
  rw [hfun]

theorem rangeMap_eq_readChunks {b : Nat} (hb : 0 < b) :
    ∀ (seq : List α),
      (List.range ((seq.length + b - 1) / b)).map (fun k => (seq.drop (b * k)).take b)
        = readChunks b seq := by
  intro seq
  induction seq using readChunks.induct b with
  | case1 xs h =>
      rw [readChunks_nil_of_take b xs h]
      rw [List.take_eq_nil_iff] at h
      rcases h with h | h
      · exact absurd h (by omega)
      · rw [h]
        have hz : (([] : List α).length + b - 1) / b = 0 := by
          simp only [List.length_nil, Nat.zero_add]
          exact Nat.div_eq_of_lt (by omega)
        rw [hz]
        rfl
  | case2 xs c cs hm ih =>
      have hx : xs ≠ [] := by
        intro he
        rw [he, List.take_nil] at hm
        exact List.noConfusion hm
      have hL : 0 < xs.length := List.length_pos.mpr hx
      have hq : (xs.length + b - 1) / b = (xs.length - 1) / b + 1 := by
        have h2 : xs.length + b - 1 = (xs.length - 1) + b := by omega
        rw [h2, Nat.add_div_right _ hb]
      rw [hq, List.range_succ_eq_map, List.map_cons]
      rw [readChunks_cons_of_take b xs (by rw [hm]; exact List.cons_ne_nil c cs)]
      congr 1
      rw [List.map_map]
      have hfun : ((fun k => (xs.drop (b * k)).take b) ∘ Nat.succ)
          = (fun k => ((xs.drop b).drop (b * k)).take b) := by
        funext k
        simp only [Function.comp_apply, List.drop_drop]
        rw [Nat.succ_eq_add_one, Nat.mul_add, Nat.mul_one, Nat.add_comm (b * k) b]
      rw [hfun]
      have hlen2 : (xs.length - 1) / b = ((xs.drop b).length + b - 1) / b := by
        rw [List.length_drop]
        rcases le_or_lt b xs.length with hle | hlt
        · congr 1
          omega
        · have h1 : xs.length - b = 0 := by omega
          rw [h1, Nat.div_eq_of_lt (by omega : xs.length - 1 < b),
            Nat.div_eq_of_lt (by omega : 0 + b - 1 < b)]
      rw [hlen2, ih]

theorem chunked_eq_readChunks {b : Nat} (hb : 0 < b) (seq : List α) :
    chunked seq (b : Int) = some (readChunks b seq) := by
  rw [chunked_pos_eq hb seq, rangeMap_eq_readChunks hb seq]

/-- C3: for a positive batch size `b`, `chunked` succeeds and yields exactly
`⌈L / b⌉ = (L + b - 1) / b` batches whose concatenation in order is the
original list (so they are non-overlapping contiguous slices); every batch
has at most `b` elements and all but possibly the last have exactly `b`;
the empty list yields no batches. -/
theorem c3_batcher (seq : List α) (b : Nat) (hb : 0 < b) :
    ∃ bs, chunked seq (b : Int) = some bs ∧
      bs.length = (seq.length + b - 1) / b ∧
      bs.flatten = seq ∧
      (∀ c ∈ bs, c.length ≤ b) ∧
      (∀ c ∈ bs.dropLast, c.length = b) ∧
      (seq = [] → bs = []) := by
  refine ⟨readChunks b seq, chunked_eq_readChunks hb seq, length_readChunks hb seq,
    flatten_readChunks hb seq, length_le_of_mem_readChunks seq,
    length_eq_of_mem_dropLast_readChunks hb seq, ?_⟩
  intro he
  rw [he]
  exact readChunks_nil b

/-- Witness for C3 at batch size 2 on a 5-element list (3 batches: 2, 2, 1). -/
theorem c3_batcher_witness :
    ∃ bs, chunked ([10, 11, 12, 13, 14] : List Nat) ((2 : Nat) : Int) = some bs ∧
      bs.length = (([10, 11, 12, 13, 14] : List Nat).length + 2 - 1) / 2 ∧
      bs.flatten = [10, 11, 12, 13, 14] ∧
      (∀ c ∈ bs, c.length ≤ 2) ∧
      (∀ c ∈ bs.dropLast, c.length = 2) ∧
      (([10, 11, 12, 13, 14] : List Nat) = [] → bs = []) :=
  c3_batcher [10, 11, 12, 13, 14] 2 (by decide)

/-- C7 counterexample: the claim says a non-positive batch size makes the
batcher fail with a configuration error.  A negative batch size does not
fail at all: `range(0, len(seq), n)` is empty for `n < 0`, so `chunked`
silently yields zero batches. -/
theorem c7_counterexample :
    chunked ([1, 2, 3] : List Nat) (-1) = some [] ∧
      chunked ([1, 2, 3] : List Nat) (-1) ≠ none := by
  constructor
  · decide
  · decide

/-- C7 amended: a zero batch size makes `chunked` raise (`range` rejects a
zero step), as the claim says; but a negative batch size produces zero
batches without any error, contrary to the claim; a non-integer batch size
cannot reach `chunked` at all (it fails earlier, in `int()`). -/
theorem c7_batch_size (seq : List α) (n : Int) (hn : n < 0) :
    chunked seq 0 = none ∧ chunked seq n = some [] := by
  constructor
  · simp [chunked, pyRange]
  · have hn0 : n ≠ 0 := by omega
    have hnp : ¬ (0 : Int) < n := by omega
    have hden : (0 : Int) < -n := by omega
    have hlen : ((0 : Int) - seq.length + -n - 1) / -n ≤ 0 := by
      have hnum : (0 : Int) - seq.length + -n - 1 < -n := by
        have : (0 : Int) ≤ (seq.length : Int) := Int.natCast_nonneg _
        omega
      have h1 : ((0 : Int) - seq.length + -n - 1) / -n < 1 :=
        (Int.ediv_lt_iff_lt_mul hden).mpr (by omega)
      omega
    simp only [chunked, pyRange, if_neg hn0, if_pos, hnp, if_false, Option.map_some]
    rw [Int.toNat_eq_zero.mpr hlen]
    rfl

/-- Witness for the amended C7 at batch size -3 on a 2-element list. -/
theorem c7_batch_size_witness :
    chunked ([5, 6] : List Nat) 0 = none ∧ chunked ([5, 6] : List Nat) (-3) = some [] :=
  c7_batch_size [5, 6] (-3) (by decide)

/-! ## Theorems: the content hasher (C10) -/

theorem foldl_append_eq_flatten :
    ∀ (l : List (List Nat)) (acc : List Nat),
      l.foldl (fun a c => a ++ c) acc = acc ++ l.flatten := by
  intro l
  induction l with
  | nil => intro acc; simp
  | cons c l ih =>
      intro acc
      rw [List.foldl_cons, ih, List.flatten_cons, List.append_assoc]

theorem hexDigit_mem : ∀ n, n < 16 → hexDigit n ∈ "0123456789abcdef".data := by
  decide

theorem hex8_length (w : Nat) : (hex8 w).length = 8 := by
  simp [hex8, String.length]

theorem hex8_chars (w : Nat) : ∀ ch ∈ (hex8 w).data, ch ∈ "0123456789abcdef".data := by
  intro ch hch
  simp only [hex8] at hch
  rcases List.mem_map.mp hch with ⟨i, _, hi⟩
  rw [← hi]
  exact hexDigit_mem _ (Nat.mod_lt _ (by norm_num))

theorem sha1Hex_length (msg : List Nat) : (sha1Hex msg).length = 40 := by
  rw [sha1Hex]
  rcases sha1Words msg with ⟨a, b, c, d, e⟩
  simp only [String.length_append, hex8_length]

theorem sha1Hex_chars (msg : List Nat) :
    ∀ ch ∈ (sha1Hex msg).data, ch ∈ "0123456789abcdef".data := by
  rw [sha1Hex]
  rcases sha1Words msg with ⟨a, b, c, d, e⟩
  intro ch hch
  simp only [String.data_append, List.mem_append] at hch
  rcases hch with ((((h | h) | h) | h) | h) <;> exact hex8_chars _ ch h

/-- C10: the two code paths of `sha1_file` agree.  For every file content
and every positive buffer size, the manual chunked-read loop produces the
same digest as the `hashlib.file_digest` path — both are the SHA-1 of the
full byte content — and that digest is a 40-character string of hexadecimal
characters. -/
theorem c10_sha1_file_paths (content : List Nat) (buf : Nat) (hbuf : 0 < buf) :
    sha1FileManualPath content buf = sha1FileDigestPath content ∧
      (sha1FileDigestPath content).length = 40 ∧
      ∀ ch ∈ (sha1FileDigestPath content).data, ch ∈ "0123456789abcdef".data := by
  refine ⟨?_, sha1Hex_length content, sha1Hex_chars content⟩
  rw [sha1FileManualPath, sha1FileDigestPath, foldl_append_eq_flatten,
    flatten_readChunks hbuf content, List.nil_append]

/-- Witness for C10 on the content "abc" with buffer size 2. -/
theorem c10_sha1_file_paths_witness :
    sha1FileManualPath [97, 98, 99] 2 = sha1FileDigestPath [97, 98, 99] ∧
      (sha1FileDigestPath [97, 98, 99]).length = 40 ∧
      ∀ ch ∈ (sha1FileDigestPath [97, 98, 99]).data, ch ∈ "0123456789abcdef".data :=
  c10_sha1_file_paths [97, 98, 99] 2 (by decide)
